import Mathlib

/-!
# Verification of `once-list` (`once_list2` crate)

A shallow embedding of the core of the `once-list` repository:

* `src/once_list.rs` — `OnceListCore` (push/extend/remove/clear/len, `pop_front`),
* `src/cache_mode.rs` — the four cache modes `NoCache`, `WithLen`, `WithTail`,
  `WithTailLen` and their hooks,
* `src/iter.rs` — the borrowing iterator `Iter`,
* `src/oncecell_ext.rs` — `try_insert2` on the write-once cell,
* `src/any.rs` — the `dyn Any` variant (`push_any` / `find_by_type` / `remove_by_type`).

The heap chain of `Cons` nodes reachable from the head slot is represented by the
list of its values, in link order (`chain : List α`).  A "slot" is identified by
the number of nodes that precede it: slot `0` is the head slot, slot `i + 1` is
the next-slot of node `i`.  With a chain of `k` nodes, slots `0 … k-1` are full
(slot `j` holds node `j`) and slot `k` is the unique empty slot, so

* `slot j` is empty iff `chain.length ≤ j`, and
* a successful `try_insert2` at the empty slot appends the node at the end.

Machine integers (`usize` lengths, counters) are modelled as `Nat`; the counts
involved are node counts, which cannot overflow a `usize` on a real heap.
-/

namespace OnceList2

/-- The four cache modes of `src/cache_mode.rs`: `NoCache`, `WithLen`,
`WithTail`, `WithTailLen`.  The trait is sealed, so these are all of them. -/
inductive Mode where
  | noCache
  | withLen
  | withTail
  | withTailLen
deriving DecidableEq, Repr

/-- State of an `OnceListCore<T, A, C>`:
`chain` is the sequence of values held by the nodes reachable from `head_slot`;
`len` models the `Cell<usize>` length counter of `WithLen` / `WithTailLen`
(present but unread in the other modes); `tailIdx` models the
`Cell<Option<NonNull<NextSlot>>>` tail cache of `WithTail` / `WithTailLen`:
`some i` means the cached pointer designates the next-slot of node `i`
(slot `i + 1`); `none` means no cached pointer. -/
structure CoreState (α : Type) where
  chain : List α
  len : Nat
  tailIdx : Option Nat
deriving Repr, DecidableEq

/-- A freshly constructed list (`new` / `new_in` of any mode): empty head slot,
counter `0`, no cached tail pointer. -/
def initState {α : Type} : CoreState α := ⟨[], 0, none⟩

/-- Source `CacheMode::cached_len`: `Some(len)` for the length-caching modes,
`None` (the trait default) otherwise. -/
def cached_len {α : Type} (m : Mode) (s : CoreState α) : Option Nat :=
  match m with
  | .withLen => some s.len
  | .withTailLen => some s.len
  | .noCache => none
  | .withTail => none

/-- Whether slot `j` of the chain is empty (`slot.get().is_none()`):
slot `0` is the head slot, slot `i + 1` is node `i`'s next-slot; the slot
after the last node is the only empty one. -/
def slotEmpty {α : Type} (chain : List α) (j : Nat) : Bool :=
  decide (chain.length ≤ j)

/-- Source `CacheMode::tail_slot_opt`: the tail-caching modes return the cached
slot (as the index `i` of the node owning it) only after re-validating that
the pointed-to slot is still empty; the other modes return `None`
(the trait default). -/
def tail_slot_opt {α : Type} (m : Mode) (s : CoreState α) : Option Nat :=
  match m with
  | .withTail | .withTailLen =>
    match s.tailIdx with
    | some i => if slotEmpty s.chain (i + 1) then some i else none
    | none => none
  | .noCache => none
  | .withLen => none

/-- Source `CacheMode::on_push_success`, called with the new node's own next-slot:
`WithLen` increments the counter, `WithTail` stores the pointer,
`WithTailLen` does both, `NoCache` does nothing.  `newIdx` is the index of
the newly inserted node (whose next-slot is the passed slot). -/
def on_push_success {α : Type} (m : Mode) (s : CoreState α) (newIdx : Nat) :
    CoreState α :=
  match m with
  | .noCache => s
  | .withLen => { s with len := s.len + 1 }
  | .withTail => { s with tailIdx := some newIdx }
  | .withTailLen => { s with len := s.len + 1, tailIdx := some newIdx }

/-- Source `CacheMode::on_remove_success`: the length-caching modes decrement the
counter, the others do nothing (the trait default). -/
def on_remove_success {α : Type} (m : Mode) (s : CoreState α) : CoreState α :=
  match m with
  | .withLen => { s with len := s.len - 1 }
  | .withTailLen => { s with len := s.len - 1 }
  | .noCache => s
  | .withTail => s

/-- Source `CacheMode::on_clear`: `WithLen` zeroes the counter, `WithTailLen` zeroes
the counter and drops the cached pointer, the others keep the trait default
no-op. -/
def on_clear {α : Type} (m : Mode) (s : CoreState α) : CoreState α :=
  match m with
  | .withLen => { s with len := 0 }
  | .withTailLen => { s with len := 0, tailIdx := none }
  | .noCache => s
  | .withTail => s

/-- The structural-invalidation hook (`on_structure_change` in
`once_list.rs`, implemented as `invalidate` by the modes): the tail-caching
modes drop the cached pointer, the others do nothing. -/
def on_structure_change {α : Type} (m : Mode) (s : CoreState α) : CoreState α :=
  match m with
  | .withTail => { s with tailIdx := none }
  | .withTailLen => { s with tailIdx := none }
  | .noCache => s
  | .withLen => s

/-- The probe loop of `OnceListCore::push_inner`: starting at slot `cursor`,
repeatedly `try_insert2` the new node; on `Err` advance to the occupying
node's next-slot (`cursor + 1`) and retry; on `Ok` the node is linked at the
empty slot, which appends it at the end of the chain. -/
def push_loop {α : Type} (chain : List α) (cursor : Nat) (v : α) : List α :=
  if slotEmpty chain cursor then
    chain ++ [v]
  else
    push_loop chain (cursor + 1) v
termination_by chain.length - cursor
decreasing_by
  simp only [slotEmpty, decide_eq_true_eq, not_le] at *
  omega

/-- Source `OnceListCore::push_inner` (used by `push` / `push_back`): start at the
cache's tail slot when it offers one (slot `i + 1` for cached node `i`),
otherwise at the head slot (slot `0`); run the probe loop; then report
success to the cache mode with the new node's next-slot. -/
def push {α : Type} (m : Mode) (s : CoreState α) (v : α) : CoreState α :=
  let start : Nat :=
    match tail_slot_opt m s with
    | some i => i + 1
    | none => 0
  let chain' := push_loop s.chain start v
  on_push_success m { s with chain := chain' } (chain'.length - 1)

/-- The loop of `OnceListCore::extend`: one cursor threaded across all
values.  For each value, `try_insert2` at the cursor: on `Err` advance the
cursor to the occupying node's next-slot and retry the same value; on `Ok`
report success to the cache mode and continue with the next value from the
inserted node's next-slot. -/
def extend_loop {α : Type} (m : Mode) (s : CoreState α) (cursor : Nat) :
    List α → CoreState α
  | [] => s
  | v :: rest =>
    if slotEmpty s.chain cursor then
      let chain' := s.chain ++ [v]
      extend_loop m (on_push_success m { s with chain := chain' } (chain'.length - 1))
        (cursor + 1) rest
    else
      extend_loop m s (cursor + 1) (v :: rest)
termination_by vs => (s.chain.length - cursor) + vs.length
decreasing_by
  · cases m <;> simp_all [on_push_success, slotEmpty]
  · simp only [slotEmpty, decide_eq_true_eq, not_le] at *
    omega

/-- Source `OnceListCore::extend`: resolve the starting slot once (cached tail slot
or head), then run the insertion loop over the values. -/
def extend {α : Type} (m : Mode) (s : CoreState α) (vs : List α) : CoreState α :=
  let start : Nat :=
    match tail_slot_opt m s with
    | some i => i + 1
    | none => 0
  extend_loop m s start vs

/-- The scan of `OnceListCore::remove_inner`: walk the chain from the head
slot; at the first value matching the predicate, take the node out of its
slot and move the node's own next chain into that slot (the splice),
returning the removed value and the resulting chain; if the end of the
chain is reached without a match, return `none`. -/
def remove_scan {α : Type} (pred : α → Bool) : List α → Option (α × List α)
  | [] => none
  | x :: rest =>
    if pred x then some (x, rest)
    else
      match remove_scan pred rest with
      | some (v, rest') => some (v, x :: rest')
      | none => none

/-- Source `OnceListCore::remove_inner` (used by `remove` / `pop_front` /
`remove_by_type`): first fire the structural-invalidation hook, then scan;
on a match fire `on_remove_success` and return the value, otherwise return
`none`.  The pair is (returned value, list state afterwards). -/
def removeOp {α : Type} (m : Mode) (s : CoreState α) (pred : α → Bool) :
    Option α × CoreState α :=
  let s1 := on_structure_change m s
  match remove_scan pred s1.chain with
  | some (v, chain') => (some v, on_remove_success m { s1 with chain := chain' })
  | none => (none, s1)

/-- Source `OnceListCore::pop_front`: literally `remove(|_| true)`. -/
def pop_front {α : Type} (m : Mode) (s : CoreState α) : Option α × CoreState α :=
  removeOp m s (fun _ => true)

/-- Source `OnceListCore::clear`: replace the head slot by a fresh empty slot, then
fire `on_clear` and the structural-invalidation hook. -/
def clear {α : Type} (m : Mode) (s : CoreState α) : CoreState α :=
  on_structure_change m (on_clear m { s with chain := [] })

/-- Source `OnceListCore::len`: the cached length when the mode offers one,
otherwise `iter().count()`, i.e. the chain length. -/
def lenOp {α : Type} (m : Mode) (s : CoreState α) : Nat :=
  match cached_len m s with
  | some n => n
  | none => s.chain.length

/-! ## The borrowing iterator (`src/iter.rs`)

`Iter` holds a reference to a slot of the chain.  References to slots are
stable under pushes (pushes never move or remove a node, they only fill the
one empty slot at the end), so a live iterator is identified by the number
`pos` of nodes it has already walked past: it currently points at slot
`pos`. -/

/-- Source `Iter::next`: read the iterator's slot; if empty yield `None`, otherwise
yield a reference to the occupying node's value and move the iterator to
that node's next-slot. -/
def iterNext {α : Type} (chain : List α) (pos : Nat) : Option (α × Nat) :=
  match chain.drop pos with
  | [] => none
  | x :: _ => some (x, pos + 1)

/-- Exhaust the iterator from position `pos`, collecting every value
`Iter::next` yields until it yields `None`. -/
def iterCollect {α : Type} (chain : List α) (pos : Nat) : List α :=
  match h : iterNext chain pos with
  | none => []
  | some (x, pos') => x :: iterCollect chain pos'
termination_by chain.length - pos
decreasing_by
  simp only [iterNext] at h
  rcases hd : chain.drop pos with _ | ⟨y, tl⟩
  · rw [hd] at h; exact absurd h (by simp)
  · rw [hd] at h
    have hlt : pos < chain.length := by
      by_contra hge
      rw [List.drop_eq_nil_of_le (by omega)] at hd
      exact absurd hd (by simp)
    simp only [Option.some.injEq, Prod.mk.injEq] at h
    omega

/-! ## Operation scripts -/

/-- One operation of a single-threaded script against the list. -/
inductive Op (α : Type) where
  | push (v : α)
  | extend (vs : List α)
  | remove (pred : α → Bool)
  | clear

/-- Apply one script operation to the state (the value returned by `remove`
is dropped; `run` only tracks the list state). -/
def step {α : Type} (m : Mode) (s : CoreState α) : Op α → CoreState α
  | .push v => push m s v
  | .extend vs => extend m s vs
  | .remove pred => (removeOp m s pred).2
  | .clear => clear m s

/-- Run a script from a freshly constructed list of the given mode. -/
def run {α : Type} (m : Mode) (ops : List (Op α)) : CoreState α :=
  ops.foldl (step m) initState

/-! ## Basic lemmas about the hooks -/

theorem on_push_success_chain {α : Type} (m : Mode) (s : CoreState α) (i : Nat) :
    (on_push_success m s i).chain = s.chain := by
  cases m <;> rfl

theorem on_push_success_len {α : Type} (m : Mode) (s : CoreState α) (i : Nat) :
    (on_push_success m s i).len =
      (match m with
       | .withLen | .withTailLen => s.len + 1
       | _ => s.len) := by
  cases m <;> rfl

theorem on_remove_success_chain {α : Type} (m : Mode) (s : CoreState α) :
    (on_remove_success m s).chain = s.chain := by
  cases m <;> rfl

theorem on_structure_change_chain {α : Type} (m : Mode) (s : CoreState α) :
    (on_structure_change m s).chain = s.chain := by
  cases m <;> rfl

theorem on_structure_change_len {α : Type} (m : Mode) (s : CoreState α) :
    (on_structure_change m s).len = s.len := by
  cases m <;> rfl

/-! ## The probe loops append at the end

`tail_slot_opt` re-validates the cached slot is empty before offering it,
so wherever the probe loop starts it terminates at the single empty slot of
the chain and links the new node there: the chain is extended at the end. -/

theorem push_loop_eq_append {α : Type} (chain : List α) (cursor : Nat) (v : α) :
    push_loop chain cursor v = chain ++ [v] := by
  by_cases h : slotEmpty chain cursor
  · rw [push_loop, if_pos h]
  · rw [push_loop, if_neg h]
    exact push_loop_eq_append chain (cursor + 1) v
termination_by chain.length - cursor
decreasing_by
  simp only [slotEmpty, decide_eq_true_eq, not_le] at h
  omega

theorem push_chain {α : Type} (m : Mode) (s : CoreState α) (v : α) :
    (push m s v).chain = s.chain ++ [v] := by
  unfold push
  rw [on_push_success_chain, push_loop_eq_append]

theorem push_len {α : Type} (m : Mode) (s : CoreState α) (v : α) :
    (push m s v).len =
      (match m with
       | .withLen | .withTailLen => s.len + 1
       | _ => s.len) := by
  unfold push
  rw [on_push_success_len]

theorem extend_loop_chain_len {α : Type} (m : Mode) (s : CoreState α)
    (cursor : Nat) (vs : List α) :
    (extend_loop m s cursor vs).chain = s.chain ++ vs ∧
    (extend_loop m s cursor vs).len =
      (match m with
       | .withLen | .withTailLen => s.len + vs.length
       | _ => s.len) := by
  match vs with
  | [] => cases m <;> simp [extend_loop]
  | v :: rest =>
    by_cases h : slotEmpty s.chain cursor
    · rw [extend_loop, if_pos h]
      have ih := extend_loop_chain_len m
        (on_push_success m { s with chain := s.chain ++ [v] }
          ((s.chain ++ [v]).length - 1)) (cursor + 1) rest
      refine ⟨?_, ?_⟩
      · rw [ih.1, on_push_success_chain]
        simp
      · rw [ih.2, on_push_success_len]
        cases m <;> simp <;> omega
    · rw [extend_loop, if_neg h]
      exact extend_loop_chain_len m s (cursor + 1) (v :: rest)
termination_by (s.chain.length - cursor) + vs.length
decreasing_by
  · cases m <;> simp_all [on_push_success, slotEmpty]
  · simp only [slotEmpty, decide_eq_true_eq, not_le] at h
    omega

theorem extend_chain {α : Type} (m : Mode) (s : CoreState α) (vs : List α) :
    (extend m s vs).chain = s.chain ++ vs :=
  (extend_loop_chain_len m s _ vs).1

theorem extend_len {α : Type} (m : Mode) (s : CoreState α) (vs : List α) :
    (extend m s vs).len =
      (match m with
       | .withLen | .withTailLen => s.len + vs.length
       | _ => s.len) :=
  (extend_loop_chain_len m s _ vs).2

/-! ## Lemmas about the removal scan -/

theorem remove_scan_none {α : Type} (pred : α → Bool) (l : List α)
    (h : ∀ x ∈ l, pred x = false) : remove_scan pred l = none := by
  induction l with
  | nil => rfl
  | cons x rest ih =>
    have hx : pred x = false := h x (by simp)
    have hr : remove_scan pred rest = none := ih fun y hy => h y (by simp [hy])
    simp [remove_scan, hx, hr]

theorem remove_scan_first_match {α : Type} (pred : α → Bool) (xs : List α)
    (a : α) (ys : List α) (hxs : ∀ x ∈ xs, pred x = false) (ha : pred a = true) :
    remove_scan pred (xs ++ a :: ys) = some (a, xs ++ ys) := by
  induction xs with
  | nil => simp [remove_scan, ha]
  | cons x rest ih =>
    have hx : pred x = false := hxs x (by simp)
    have hr := ih fun y hy => hxs y (by simp [hy])
    simp [remove_scan, hx, hr]

theorem remove_scan_length {α : Type} (pred : α → Bool) (l : List α)
    (v : α) (l' : List α) (h : remove_scan pred l = some (v, l')) :
    l.length = l'.length + 1 := by
  induction l generalizing l' with
  | nil => simp [remove_scan] at h
  | cons x rest ih =>
    by_cases hx : pred x
    · simp only [remove_scan, if_pos hx, Option.some.injEq, Prod.mk.injEq] at h
      simp [← h.2]
    · simp only [remove_scan, if_neg hx] at h
      rcases hr : remove_scan pred rest with _ | ⟨w, rest'⟩
      · rw [hr] at h; cases h
      · rw [hr] at h
        simp only [Option.some.injEq, Prod.mk.injEq] at h
        have := ih rest' (by rw [hr, h.1])
        simp [← h.2, this]

/-! ## Mode-independent chain semantics

The external effect of each operation on the chain, with all cache state
erased.  Each mode's `step` refines this. -/

/-- The observable effect of one operation on the chain of values. -/
def chainStep {α : Type} (c : List α) : Op α → List α
  | .push v => c ++ [v]
  | .extend vs => c ++ vs
  | .remove pred =>
    match remove_scan pred c with
    | some (_, c') => c'
    | none => c
  | .clear => []

theorem on_clear_chain {α : Type} (m : Mode) (s : CoreState α) :
    (on_clear m s).chain = s.chain := by
  cases m <;> rfl

theorem step_chain {α : Type} (m : Mode) (s : CoreState α) (op : Op α) :
    (step m s op).chain = chainStep s.chain op := by
  cases op with
  | push v => exact push_chain m s v
  | extend vs => exact extend_chain m s vs
  | remove pred =>
    show (removeOp m s pred).2.chain = _
    simp only [removeOp, chainStep, on_structure_change_chain]
    rcases h : remove_scan pred s.chain with _ | ⟨v, c'⟩ <;>
      simp [h, on_remove_success_chain, on_structure_change_chain]
  | clear =>
    show (clear m s).chain = []
    unfold clear
    rw [on_structure_change_chain, on_clear_chain]

theorem foldl_step_chain {α : Type} (m : Mode) (ops : List (Op α))
    (s : CoreState α) :
    (ops.foldl (step m) s).chain = ops.foldl chainStep s.chain := by
  induction ops generalizing s with
  | nil => rfl
  | cons op rest ih => rw [List.foldl_cons, List.foldl_cons, ih, step_chain]

/-- The chain after a script is the same in every cache mode. -/
theorem run_chain {α : Type} (m : Mode) (ops : List (Op α)) :
    (run m ops).chain = ops.foldl chainStep [] :=
  foldl_step_chain m ops initState

/-! ## The cached length is exact in the length-caching modes -/

theorem on_clear_len {α : Type} (m : Mode) (s : CoreState α) :
    (on_clear m s).len =
      (match m with
       | .withLen | .withTailLen => 0
       | _ => s.len) := by
  cases m <;> rfl

theorem on_remove_success_len {α : Type} (m : Mode) (s : CoreState α) :
    (on_remove_success m s).len =
      (match m with
       | .withLen | .withTailLen => s.len - 1
       | _ => s.len) := by
  cases m <;> rfl

/-- Applying `step` preserves the invariant «counter = chain length» in the
length-caching modes. -/
theorem step_len_inv {α : Type} (m : Mode) (s : CoreState α) (op : Op α)
    (hm : m = .withLen ∨ m = .withTailLen) (h : s.len = s.chain.length) :
    (step m s op).len = (step m s op).chain.length := by
  cases op with
  | push v =>
    show (push m s v).len = (push m s v).chain.length
    rw [push_chain, push_len]
    rcases hm with hm | hm <;> subst hm <;> simp [h]
  | extend vs =>
    show (OnceList2.extend m s vs).len = (OnceList2.extend m s vs).chain.length
    rw [extend_chain, extend_len]
    rcases hm with hm | hm <;> subst hm <;> simp [h]
  | remove pred =>
    show (removeOp m s pred).2.len = (removeOp m s pred).2.chain.length
    simp only [removeOp, on_structure_change_chain]
    rcases hscan : remove_scan pred s.chain with _ | ⟨v, c'⟩
    · simp [hscan, on_structure_change_len, on_structure_change_chain, h]
    · have hlen := remove_scan_length pred s.chain v c' hscan
      rcases hm with hm | hm <;> subst hm <;>
        simp [hscan, on_remove_success_len, on_remove_success_chain,
          on_structure_change_len, h] <;>
        omega
  | clear =>
    show (clear m s).len = (clear m s).chain.length
    unfold clear
    rw [on_structure_change_len, on_structure_change_chain, on_clear_len,
      on_clear_chain]
    rcases hm with hm | hm <;> subst hm <;> rfl

theorem run_len_inv {α : Type} (m : Mode) (ops : List (Op α))
    (hm : m = .withLen ∨ m = .withTailLen) :
    (run m ops).len = (run m ops).chain.length := by
  suffices h : ∀ s : CoreState α, s.len = s.chain.length →
      (ops.foldl (step m) s).len = (ops.foldl (step m) s).chain.length from
    h initState rfl
  induction ops with
  | nil => exact fun s hs => hs
  | cons op rest ih =>
    intro s hs
    exact ih _ (step_len_inv m s op hm hs)

/-- After any script, `len()` reports the chain length, in every mode. -/
theorem lenOp_run {α : Type} (m : Mode) (ops : List (Op α)) :
    lenOp m (run m ops) = (run m ops).chain.length := by
  cases m with
  | noCache => rfl
  | withTail => rfl
  | withLen =>
    show (run Mode.withLen ops).len = _
    exact run_len_inv _ ops (Or.inl rfl)
  | withTailLen =>
    show (run Mode.withTailLen ops).len = _
    exact run_len_inv _ ops (Or.inr rfl)

/-! ## The iterator walks the chain in link order -/

theorem iterNext_eq_none_iff {α : Type} (chain : List α) (pos : Nat) :
    iterNext chain pos = none ↔ chain.length ≤ pos := by
  unfold iterNext
  rcases hd : chain.drop pos with _ | ⟨x, tl⟩
  · simp only [true_iff]
    by_contra hlt
    rw [List.drop_eq_nil_iff] at hd
    exact hlt hd
  · simp only [reduceCtorEq, false_iff, not_le]
    by_contra hge
    rw [List.drop_eq_nil_of_le (by omega)] at hd
    exact absurd hd (by simp)

theorem iterNext_of_drop_cons {α : Type} (chain : List α) (pos : Nat)
    (x : α) (tl : List α) (hd : chain.drop pos = x :: tl) :
    iterNext chain pos = some (x, pos + 1) := by
  unfold iterNext
  rw [hd]

/-- Exhausting the iterator from slot `pos` yields exactly the values of the
nodes after that slot, in link order. -/
theorem iterCollect_eq_drop {α : Type} (chain : List α) (pos : Nat) :
    iterCollect chain pos = chain.drop pos := by
  rw [iterCollect.eq_def]
  split
  case h_1 heq =>
    rw [List.drop_eq_nil_of_le ((iterNext_eq_none_iff chain pos).1 heq)]
  case h_2 x pos' heq =>
    rcases hd : chain.drop pos with _ | ⟨y, tl⟩
    · rw [(iterNext_eq_none_iff chain pos).2 (List.drop_eq_nil_iff.1 hd)]
        at heq
      cases heq
    · rw [iterNext_of_drop_cons chain pos y tl hd] at heq
      simp only [Option.some.injEq, Prod.mk.injEq] at heq
      obtain ⟨hx, hp⟩ := heq
      subst hx hp
      have hdrop : chain.drop (pos + 1) = tl := by
        have h2 := List.drop_drop 1 pos chain
        rw [hd] at h2
        simpa [Nat.add_comm] using h2.symm
      rw [iterCollect_eq_drop chain (pos + 1), hdrop]

termination_by chain.length - pos
decreasing_by
  have hlt : pos < chain.length := by
    by_contra hge
    rw [List.drop_eq_nil_of_le (by omega)] at hd
    exact absurd hd (by simp)
  omega

/-! ## Sequences of single pushes -/

/-- A sequence of `push` / `push_back` calls, one value at a time. -/
def pushAll {α : Type} (m : Mode) (s : CoreState α) (vs : List α) : CoreState α :=
  vs.foldl (push m) s

theorem pushAll_chain {α : Type} (m : Mode) (s : CoreState α) (vs : List α) :
    (pushAll m s vs).chain = s.chain ++ vs := by
  induction vs generalizing s with
  | nil => simp [pushAll]
  | cons v rest ih =>
    show (pushAll m (push m s v) rest).chain = _
    rw [ih, push_chain]
    simp

/-! ## The write-once cell (`src/oncecell_ext.rs`)

`OnceCell<V>` is modelled by its contents, `Option V`.  `OnceCell::set`
commits iff the cell is empty and hands the value back otherwise;
`OnceCell::get` reads the contents. -/

/-- Source `OnceCell::set`: `(new contents, rejected value if the cell was full)`. -/
def cellSet {V : Type} (c : Option V) (v : V) : Option V × Option V :=
  match c with
  | none => (some v, none)
  | some cur => (some cur, some v)

/-- Source `OnceCell::get`. -/
def cellGet {V : Type} (c : Option V) : Option V := c

/-- Source `OnceCellExt::try_insert2` (the stable-toolchain implementation): `set`,
then re-`get` to build the result.  The second component is the returned
`Result`: `Except.ok` carries the referent of the `Ok(&T)` reference,
`Except.error` carries the referents of `Err((&T, T))`.  The source's two
`unreachable!` branches (a just-set or set-rejecting cell reading back
empty) are represented by `none`. -/
def try_insert2 {V : Type} (c : Option V) (v : V) :
    Option V × Option (Except (V × V) V) :=
  match cellSet c v with
  | (c', none) =>
    match cellGet c' with
    | some r => (c', some (Except.ok r))
    | none => (c', none)
  | (c', some value) =>
    match cellGet c' with
    | some r => (c', some (Except.error (r, value)))
    | none => (c', none)

/-! ## The `dyn Any` variant (`src/any.rs`)

A `dyn Any` element is its runtime type identity (`TypeId`, modelled as a
`Nat`) together with its payload. -/

/-- One element of a `OnceList<dyn Any>`. -/
structure AnyVal (β : Type) where
  ty : Nat
  payload : β
deriving DecidableEq, Repr

/-- Source `<dyn Any>::downcast_ref::<T>`: the payload iff the runtime type is
exactly `T`. -/
def downcast_ref {β : Type} (T : Nat) (x : AnyVal β) : Option β :=
  if x.ty = T then some x.payload else none

/-- Source `<dyn Any>::is::<T>`, the predicate `remove_by_type` passes to
`remove_inner`. -/
def dynIs {β : Type} (T : Nat) (x : AnyVal β) : Bool :=
  decide (x.ty = T)

/-- Source `OnceListCore::push_any::<T>(val)`: box the value together with its
runtime type identity and `push_inner` it. -/
def push_any {β : Type} (m : Mode) (s : CoreState (AnyVal β)) (T : Nat)
    (p : β) : CoreState (AnyVal β) :=
  push m s ⟨T, p⟩

/-- A sequence of `push_any` calls: each pair is (runtime type, value). -/
def pushAnyAll {β : Type} (m : Mode) (s : CoreState (AnyVal β))
    (ps : List (Nat × β)) : CoreState (AnyVal β) :=
  ps.foldl (fun acc q => push_any m acc q.1 q.2) s

/-- Source `OnceListCore::find_by_type::<T>()`:
`self.iter().find_map(|val| val.downcast_ref())`. -/
def find_by_type {β : Type} (T : Nat) (s : CoreState (AnyVal β)) : Option β :=
  (iterCollect s.chain 0).findSome? (downcast_ref T)

/-- Source `OnceListCore::remove_by_type::<T>()`: `remove_inner(|v| v.is::<T>(), …)`
where the extraction closure reads the value out through the forced
downcast (which the theorems show always succeeds when the predicate
matched). -/
def remove_by_type {β : Type} (m : Mode) (s : CoreState (AnyVal β))
    (T : Nat) : Option β × CoreState (AnyVal β) :=
  let r := removeOp m s (dynIs T)
  (r.1.bind (downcast_ref T), r.2)

theorem pushAnyAll_chain {β : Type} (m : Mode) (s : CoreState (AnyVal β))
    (ps : List (Nat × β)) :
    (pushAnyAll m s ps).chain = s.chain ++ ps.map fun q => ⟨q.1, q.2⟩ := by
  induction ps generalizing s with
  | nil => simp [pushAnyAll]
  | cons q rest ih =>
    show (pushAnyAll m (push_any m s q.1 q.2) rest).chain = _
    rw [ih]
    show (push m s ⟨q.1, q.2⟩).chain ++ _ = _
    rw [push_chain]
    simp

theorem findSome_downcast_skip {β : Type} (T : Nat) (xs : List (AnyVal β))
    (l : List (AnyVal β)) (hxs : ∀ x ∈ xs, x.ty ≠ T) :
    (xs ++ l).findSome? (downcast_ref T) = l.findSome? (downcast_ref T) := by
  induction xs with
  | nil => rfl
  | cons x rest ih =>
    have hx : downcast_ref T x = none := by
      unfold downcast_ref
      rw [if_neg (hxs x (by simp))]
    simp only [List.cons_append, List.findSome?_cons, hx]
    exact ih fun y hy => hxs y (by simp [hy])

/-! ## Concurrent appends (`sync` feature: `OnceLock` backing)

Concurrency is modelled as a nondeterministic interleaving of atomic
`try_insert2` attempts — the granularity at which `OnceLock` serializes
racing appenders: a `try_insert2` on an empty slot atomically commits
exactly one racer's node, the losers get their node back and advance.
Each element appended by thread `t` is tagged `(t, v)` so the final chain
records which thread contributed it.  Each thread runs `push_back` per
value; under the `sync` feature the `Cell`-based caching modes are not
`Sync`, so every `push_back` probes from the head slot (`NoCache`). -/

/-- Shared state of `n` concurrent appenders: the shared chain, each
thread's values still to push (head = the value of its in-flight
`push_back` call), and the slot each thread's in-flight probe points at. -/
structure ConcState (n : Nat) (α : Type) where
  chain : List (Fin n × α)
  pending : Fin n → List α
  cursor : Fin n → Nat

/-- Initial shared state: empty list, every thread about to start its first
`push_back` from the head slot. -/
def concInit {n : Nat} {α : Type} (vals : Fin n → List α) : ConcState n α :=
  ⟨[], vals, fun _ => 0⟩

/-- One atomic `try_insert2` attempt by thread `t` (one iteration of
`push_inner`'s loop).  If `t` has nothing left to push, nothing happens.
If the probed slot is empty, `t`'s node is linked there — appended at the
end of the chain — and the `push_back` call returns, so `t` moves on to
its next value with a fresh probe from the head slot.  If the slot is full
(an earlier node, or a racer that won this slot), `t` advances to the
occupying node's next-slot and will retry. -/
def concStep {n : Nat} {α : Type} (s : ConcState n α) (t : Fin n) :
    ConcState n α :=
  match s.pending t with
  | [] => s
  | v :: rest =>
    if slotEmpty s.chain (s.cursor t) then
      ⟨s.chain ++ [(t, v)],
       Function.update s.pending t rest,
       Function.update s.cursor t 0⟩
    else
      ⟨s.chain, s.pending, Function.update s.cursor t (s.cursor t + 1)⟩

/-- Execute an arbitrary interleaving: `sched` names, step by step, which
thread's atomic attempt goes next. -/
def concRun {n : Nat} {α : Type} (vals : Fin n → List α)
    (sched : List (Fin n)) : ConcState n α :=
  sched.foldl concStep (concInit vals)

/-- The values thread `t` contributed to the chain, in chain order. -/
def threadValues {n : Nat} {α : Type} (chain : List (Fin n × α)) (t : Fin n) :
    List α :=
  (chain.filter fun p => decide (p.1 = t)).map Prod.snd

theorem threadValues_append_own {n : Nat} {α : Type}
    (chain : List (Fin n × α)) (t : Fin n) (v : α) :
    threadValues (chain ++ [(t, v)]) t = threadValues chain t ++ [v] := by
  unfold threadValues
  rw [List.filter_append]
  simp

theorem threadValues_append_other {n : Nat} {α : Type}
    (chain : List (Fin n × α)) (t u : Fin n) (v : α) (h : u ≠ t) :
    threadValues (chain ++ [(t, v)]) u = threadValues chain u := by
  unfold threadValues
  rw [List.filter_append]
  simp [Ne.symm h]

/-- Invariant of the interleaving: what thread `t` has already contributed,
followed by what it still has to push, is exactly its input sequence. -/
def concInv {n : Nat} {α : Type} (vals : Fin n → List α)
    (s : ConcState n α) : Prop :=
  ∀ t, threadValues s.chain t ++ s.pending t = vals t

theorem concStep_inv {n : Nat} {α : Type} (vals : Fin n → List α)
    (s : ConcState n α) (t : Fin n) (h : concInv vals s) :
    concInv vals (concStep s t) := by
  rcases hp : s.pending t with _ | ⟨v, rest⟩
  · simpa only [concStep, hp] using h
  · simp only [concStep, hp]
    by_cases hempty : slotEmpty s.chain (s.cursor t)
    · rw [if_pos hempty]
      intro u
      by_cases hu : u = t
      · subst hu
        rw [threadValues_append_own]
        dsimp only
        rw [Function.update_same]
        have := h u
        rw [hp] at this
        simpa using this
      · rw [threadValues_append_other _ _ _ _ hu]
        dsimp only
        rw [Function.update_noteq hu]
        exact h u
    · rw [if_neg hempty]
      exact h

theorem concRun_inv {n : Nat} {α : Type} (vals : Fin n → List α)
    (sched : List (Fin n)) : concInv vals (concRun vals sched) := by
  suffices hgen : ∀ s : ConcState n α, concInv vals s →
      concInv vals (sched.foldl concStep s) from
    hgen (concInit vals) fun t => by simp [concInit, threadValues]
  induction sched with
  | nil => exact fun s hs => hs
  | cons t rest ih => exact fun s hs => ih _ (concStep_inv vals s t hs)

/-- Every chain element carries exactly one thread tag, so the chain length
is the sum of the per-thread contributions. -/
theorem length_eq_sum_threadValues {n : Nat} {α : Type}
    (chain : List (Fin n × α)) :
    chain.length = ∑ t : Fin n, (threadValues chain t).length := by
  induction chain with
  | nil => simp [threadValues]
  | cons p rest ih =>
    have hsplit : ∀ t : Fin n, (threadValues (p :: rest) t).length =
        (if p.1 = t then 1 else 0) + (threadValues rest t).length := by
      intro t
      unfold threadValues
      by_cases hpt : p.1 = t
      · simp [List.filter_cons, hpt]
        omega
      · simp [List.filter_cons, hpt]
    simp only [hsplit, Finset.sum_add_distrib]
    rw [Finset.sum_ite_eq]
    simp [ih]
    omega

theorem mem_threadValues_of_mem {n : Nat} {α : Type}
    (chain : List (Fin n × α)) (p : Fin n × α) (h : p ∈ chain) :
    p.2 ∈ threadValues chain p.1 := by
  unfold threadValues
  exact List.mem_map_of_mem Prod.snd (List.mem_filter.2 ⟨h, by simp⟩)

/-- If every thread's contribution is duplicate-free, the whole chain is. -/
theorem nodup_of_threadValues_nodup {n : Nat} {α : Type}
    (chain : List (Fin n × α))
    (h : ∀ t, (threadValues chain t).Nodup) : chain.Nodup := by
  induction chain with
  | nil => exact List.nodup_nil
  | cons p rest ih =>
    refine List.nodup_cons.2 ⟨?_, ?_⟩
    · intro hmem
      have hmem2 := mem_threadValues_of_mem rest p hmem
      have hcons : threadValues (p :: rest) p.1 =
          p.2 :: threadValues rest p.1 := by
        unfold threadValues
        simp [List.filter_cons]
      have := h p.1
      rw [hcons] at this
      exact (List.nodup_cons.1 this).1 hmem2
    · refine ih fun t => ?_
      have := h t
      unfold threadValues at this ⊢
      rcases hpt : (decide (p.1 = t)) with _ | _
      · rw [List.filter_cons, hpt] at this
        exact this
      · rw [List.filter_cons, hpt] at this
        simp only [List.map_cons] at this
        exact (List.nodup_cons.1 this).2

/-! ## Claims -/

/-- C1: for every fixed single-threaded script of push/extend/remove/clear
operations, and after every step of the script (every prefix `ops.take k`),
the four cache modes produce lists with identical iteration sequences, and
`len()` returns the same value on each of them.  Each mode is compared with
`NoCache`; pairwise equality of all four follows. -/
theorem claim_C1_cache_mode_equivalence {α : Type} (m : Mode)
    (ops : List (Op α)) (k : Nat) :
    iterCollect (run m (ops.take k)).chain 0
      = iterCollect (run Mode.noCache (ops.take k)).chain 0 ∧
    lenOp m (run m (ops.take k))
      = lenOp Mode.noCache (run Mode.noCache (ops.take k)) := by
  have hc : (run m (ops.take k)).chain = (run Mode.noCache (ops.take k)).chain := by
    rw [run_chain, run_chain]
  exact ⟨by rw [hc], by rw [lenOp_run, lenOp_run, hc]⟩

/-- C2: for every sequence of values pushed one at a time with
`push`/`push_back` into a list of any cache mode, `iter()` yields exactly
those values in push order. -/
theorem claim_C2_push_order {α : Type} (m : Mode) (vs : List α) :
    iterCollect (pushAll m initState vs).chain 0 = vs := by
  rw [iterCollect_eq_drop, pushAll_chain]
  simp [initState]

/-- C3: for every cache mode and every script of push/extend/remove/clear
operations from a new list, `len()` equals the number of elements `iter()`
yields; and the cached length of the length-caching modes, when present, is
always exactly the element count. -/
theorem claim_C3_length_exact {α : Type} (m : Mode) (ops : List (Op α)) :
    lenOp m (run m ops) = (iterCollect (run m ops).chain 0).length ∧
    (cached_len m (run m ops) = none ∨
      cached_len m (run m ops) = some (run m ops).chain.length) := by
  constructor
  · rw [iterCollect_eq_drop]
    simpa using lenOp_run m ops
  · cases m with
    | noCache => exact Or.inl rfl
    | withTail => exact Or.inl rfl
    | withLen =>
      exact Or.inr (by simp [cached_len, run_len_inv _ ops (Or.inl rfl)])
    | withTailLen =>
      exact Or.inr (by simp [cached_len, run_len_inv _ ops (Or.inr rfl)])

/-- C4: `remove(pred)` removes exactly the first element (in iteration
order) satisfying the predicate and returns `Some` of it, and the remaining
iteration sequence is the original one with only that element deleted —
whether the match is the head (`xs = []`), a middle element, or the tail
(`ys = []`). -/
theorem claim_C4_remove_first_match {α : Type} (m : Mode) (s : CoreState α)
    (pred : α → Bool) (xs : List α) (a : α) (ys : List α)
    (hchain : s.chain = xs ++ a :: ys)
    (hxs : ∀ x ∈ xs, pred x = false) (ha : pred a = true) :
    (removeOp m s pred).1 = some a ∧
    iterCollect (removeOp m s pred).2.chain 0 = xs ++ ys := by
  have hscan : remove_scan pred s.chain = some (a, xs ++ ys) := by
    rw [hchain]
    exact remove_scan_first_match pred xs a ys hxs ha
  constructor
  · simp [removeOp, on_structure_change_chain, hscan]
  · rw [iterCollect_eq_drop]
    simp [removeOp, on_structure_change_chain, hscan, on_remove_success_chain]

theorem claim_C4_remove_first_match_witness :
    (removeOp Mode.noCache ⟨[1, 2, 3], 0, none⟩ (fun x => x == 2)).1 = some 2 ∧
    iterCollect
      (removeOp Mode.noCache ⟨[1, 2, 3], 0, none⟩ (fun x => x == 2)).2.chain 0
      = [1, 3] :=
  claim_C4_remove_first_match Mode.noCache ⟨[1, 2, 3], 0, none⟩
    (fun x => x == 2) [1] 2 [3] rfl (by decide) (by decide)

/-- C5: an iterator whose `next()` has returned `None` (it sits at the
empty slot at position `pos`, necessarily the end of the chain), after a
subsequent sequence of pushes onto the same list, yields exactly the newly
pushed values in push order when `next()` is called again. -/
theorem claim_C5_live_iterator {α : Type} (m : Mode) (s : CoreState α)
    (pos : Nat) (vs : List α) (hpos : pos ≤ s.chain.length)
    (hend : iterNext s.chain pos = none) :
    iterCollect (pushAll m s vs).chain pos = vs := by
  have hge := (iterNext_eq_none_iff s.chain pos).1 hend
  have hpe : pos = s.chain.length := le_antisymm hpos hge
  rw [iterCollect_eq_drop, pushAll_chain, hpe, List.drop_left]

theorem claim_C5_live_iterator_witness :
    (1 : Nat) ≤ ([1] : List Nat).length ∧
    iterCollect (pushAll Mode.noCache ⟨[1], 0, none⟩ [2, 3]).chain 1 = [2, 3] :=
  ⟨by decide,
    claim_C5_live_iterator Mode.noCache ⟨[1], 0, none⟩ 1 [2, 3] (by decide) rfl⟩

/-- C6: `try_insert2` on an empty write-once cell commits the value and
returns `Ok` with (a reference to) the now-committed value; on a full cell
it leaves the committed value untouched and returns `Err` carrying (a
reference to) the existing value together with the rejected input value
unchanged. -/
theorem claim_C6_try_insert2 {V : Type} (v cur : V) :
    try_insert2 (none : Option V) v = (some v, some (Except.ok v)) ∧
    try_insert2 (some cur) v = (some cur, some (Except.error (cur, v))) :=
  ⟨rfl, rfl⟩

/-- C7: `remove(pred)` with a predicate matching no element returns `None`
and leaves the iteration sequence unchanged; `pop_front` on an empty list
returns `None`. -/
theorem claim_C7_remove_not_found {α : Type} (m : Mode) (s t : CoreState α)
    (pred : α → Bool) (hnone : ∀ x ∈ s.chain, pred x = false)
    (hempty : t.chain = []) :
    (removeOp m s pred).1 = none ∧
    iterCollect (removeOp m s pred).2.chain 0 = iterCollect s.chain 0 ∧
    (pop_front m t).1 = none := by
  have hscan := remove_scan_none pred s.chain hnone
  refine ⟨?_, ?_, ?_⟩
  · simp [removeOp, on_structure_change_chain, hscan]
  · rw [iterCollect_eq_drop, iterCollect_eq_drop]
    simp [removeOp, on_structure_change_chain, hscan]
  · have hts : remove_scan (fun _ : α => true) t.chain = none := by
      rw [hempty]
      rfl
    simp [pop_front, removeOp, on_structure_change_chain, hts]

theorem claim_C7_remove_not_found_witness :
    (removeOp Mode.withTailLen ⟨[1, 2], 2, some 1⟩ (fun _ => false)).1 = none ∧
    iterCollect
      (removeOp Mode.withTailLen ⟨[1, 2], 2, some 1⟩ (fun _ => false)).2.chain 0
      = iterCollect ([1, 2] : List Nat) 0 ∧
    (pop_front Mode.withTailLen (initState : CoreState Nat)).1 = none :=
  claim_C7_remove_not_found Mode.withTailLen ⟨[1, 2], 2, some 1⟩ initState
    (fun _ => false) (by decide) rfl

/-- C8: in a `OnceList<dyn Any>` built by `push_any` calls,
`find_by_type::<T>` returns `Some` of the first element pushed with exact
runtime type `T` and `None` when no element has that type;
`remove_by_type::<T>` removes and returns exactly that first element of
type `T` (leaving the others in order) or returns `None`; elements pushed
with a different runtime type are never matched. -/
theorem claim_C8_find_remove_by_type {β : Type} (m : Mode)
    (pre post qs : List (Nat × β)) (T : Nat) (p : β)
    (hpre : ∀ q ∈ pre, q.1 ≠ T) (hqs : ∀ q ∈ qs, q.1 ≠ T) :
    (find_by_type T (pushAnyAll m initState (pre ++ (T, p) :: post)) = some p ∧
     (remove_by_type m (pushAnyAll m initState (pre ++ (T, p) :: post)) T).1
       = some p ∧
     iterCollect
       (remove_by_type m (pushAnyAll m initState (pre ++ (T, p) :: post)) T).2.chain
       0 = (pre ++ post).map (fun q => ⟨q.1, q.2⟩)) ∧
    (find_by_type T (pushAnyAll m initState qs) = none ∧
     (remove_by_type m (pushAnyAll m initState qs) T).1 = none ∧
     iterCollect (remove_by_type m (pushAnyAll m initState qs) T).2.chain 0
       = qs.map (fun q => ⟨q.1, q.2⟩)) := by
  have hpre' : ∀ x ∈ pre.map (fun q : Nat × β => (⟨q.1, q.2⟩ : AnyVal β)),
      x.ty ≠ T := by
    intro x hx
    obtain ⟨q, hq, hqx⟩ := List.mem_map.1 hx
    rw [← hqx]
    exact hpre q hq
  have hqs' : ∀ x ∈ qs.map (fun q : Nat × β => (⟨q.1, q.2⟩ : AnyVal β)),
      x.ty ≠ T := by
    intro x hx
    obtain ⟨q, hq, hqx⟩ := List.mem_map.1 hx
    rw [← hqx]
    exact hqs q hq
  have hchain1 : (pushAnyAll m initState (pre ++ (T, p) :: post)).chain
      = pre.map (fun q => ⟨q.1, q.2⟩)
        ++ (⟨T, p⟩ : AnyVal β) :: post.map (fun q => ⟨q.1, q.2⟩) := by
    rw [pushAnyAll_chain]
    simp [initState]
  have hchain2 : (pushAnyAll m initState qs).chain
      = qs.map (fun q => ⟨q.1, q.2⟩) := by
    rw [pushAnyAll_chain]
    simp [initState]
  have hdcr : downcast_ref T (⟨T, p⟩ : AnyVal β) = some p := by
    simp [downcast_ref]
  have hpredpre : ∀ x ∈ pre.map (fun q : Nat × β => (⟨q.1, q.2⟩ : AnyVal β)),
      dynIs T x = false := by
    intro x hx
    simp [dynIs, hpre' x hx]
  have hscan1 : remove_scan (dynIs T)
      (pushAnyAll m initState (pre ++ (T, p) :: post)).chain
      = some (⟨T, p⟩, pre.map (fun q => ⟨q.1, q.2⟩)
          ++ post.map (fun q => ⟨q.1, q.2⟩)) := by
    rw [hchain1]
    exact remove_scan_first_match (dynIs T) _ _ _ hpredpre (by simp [dynIs])
  have hscan2 : remove_scan (dynIs T)
      (qs.map fun q => (⟨q.1, q.2⟩ : AnyVal β)) = none :=
    remove_scan_none (dynIs T) _ fun x hx => by simp [dynIs, hqs' x hx]
  refine ⟨⟨?_, ?_, ?_⟩, ⟨?_, ?_, ?_⟩⟩
  · unfold find_by_type
    rw [iterCollect_eq_drop, List.drop_zero, hchain1,
      findSome_downcast_skip T _ _ hpre']
    simp [List.findSome?_cons, hdcr]
  · simp [remove_by_type, removeOp, on_structure_change_chain, hscan1, hdcr]
  · rw [iterCollect_eq_drop, List.drop_zero]
    simp [remove_by_type, removeOp, on_structure_change_chain, hscan1,
      on_remove_success_chain]
  · unfold find_by_type
    rw [iterCollect_eq_drop, List.drop_zero, hchain2]
    have := findSome_downcast_skip T (qs.map fun q => ⟨q.1, q.2⟩) [] hqs'
    simpa using this
  · simp [remove_by_type, removeOp, on_structure_change_chain, hchain2, hscan2]
  · rw [iterCollect_eq_drop, List.drop_zero]
    simp [remove_by_type, removeOp, on_structure_change_chain, hchain2, hscan2]

theorem claim_C8_find_remove_by_type_witness :
    (find_by_type 7 (pushAnyAll Mode.noCache initState
        ([(1, 10)] ++ (7, 99) :: [(2, 20)] : List (Nat × Nat))) = some 99 ∧
     (remove_by_type Mode.noCache (pushAnyAll Mode.noCache initState
        ([(1, 10)] ++ (7, 99) :: [(2, 20)] : List (Nat × Nat))) 7).1 = some 99 ∧
     iterCollect (remove_by_type Mode.noCache (pushAnyAll Mode.noCache initState
        ([(1, 10)] ++ (7, 99) :: [(2, 20)] : List (Nat × Nat))) 7).2.chain 0
       = (([(1, 10)] : List (Nat × Nat)) ++ [(2, 20)]).map
           (fun (q : Nat × Nat) => (⟨q.1, q.2⟩ : AnyVal Nat))) ∧
    (find_by_type 7 (pushAnyAll Mode.noCache initState
        ([(3, 30)] : List (Nat × Nat))) = none ∧
     (remove_by_type Mode.noCache (pushAnyAll Mode.noCache initState
        ([(3, 30)] : List (Nat × Nat))) 7).1 = none ∧
     iterCollect (remove_by_type Mode.noCache (pushAnyAll Mode.noCache initState
        ([(3, 30)] : List (Nat × Nat))) 7).2.chain 0
       = ([(3, 30)] : List (Nat × Nat)).map
           (fun (q : Nat × Nat) => (⟨q.1, q.2⟩ : AnyVal Nat))) :=
  claim_C8_find_remove_by_type Mode.noCache [(1, 10)] [(2, 20)] [(3, 30)]
    7 99 (by decide) (by decide)

/-- C9: when `n` concurrent appenders each push their values into one
shared list through atomic `try_insert2` attempts (the `OnceLock` backing),
any interleaving that lets every thread finish leaves the chain holding
exactly the sum of the thread counts — no lost values — with each thread's
own values appearing in its push order, and no duplicates when each
thread's values are distinct; the interleaving across threads is otherwise
arbitrary. -/
theorem claim_C9_concurrent_append {n : Nat} {α : Type}
    (vals : Fin n → List α) (sched : List (Fin n))
    (hdone : ∀ t, (concRun vals sched).pending t = []) :
    (∀ t, threadValues (concRun vals sched).chain t = vals t) ∧
    (concRun vals sched).chain.length = ∑ t : Fin n, (vals t).length ∧
    ((∀ t, (vals t).Nodup) → (concRun vals sched).chain.Nodup) := by
  have hinv := concRun_inv vals sched
  have hvals : ∀ t, threadValues (concRun vals sched).chain t = vals t := by
    intro t
    have h := hinv t
    rw [hdone t] at h
    simpa using h
  refine ⟨hvals, ?_, ?_⟩
  · rw [length_eq_sum_threadValues]
    exact Finset.sum_congr rfl fun t _ => by rw [hvals t]
  · intro hnd
    exact nodup_of_threadValues_nodup _ fun t => by rw [hvals t]; exact hnd t

/-- Concrete two-thread input for the C9 witness. -/
def c9vals : Fin 2 → List Nat := fun t => if t = 0 then [1] else [2]

/-- Concrete interleaving for the C9 witness: thread 0 wins the head slot,
thread 1 loses its first attempt there, advances, and wins the next slot. -/
def c9sched : List (Fin 2) := [0, 1, 1]

theorem claim_C9_concurrent_append_witness :
    (∀ t : Fin 2, (concRun c9vals c9sched).pending t = []) ∧
    ((∀ t, threadValues (concRun c9vals c9sched).chain t = c9vals t) ∧
     (concRun c9vals c9sched).chain.length = ∑ t : Fin 2, (c9vals t).length ∧
     ((∀ t, (c9vals t).Nodup) → (concRun c9vals c9sched).chain.Nodup)) :=
  ⟨by decide, claim_C9_concurrent_append c9vals c9sched (by decide)⟩

/-- C10: `pop_front()` on a non-empty list removes exactly the first
element of the iteration sequence and returns `Some` of it, leaving the
remaining elements in order; it is definitionally `remove(|_| true)`. -/
theorem claim_C10_pop_front {α : Type} (m : Mode) (s : CoreState α) (x : α)
    (rest : List α) (h : s.chain = x :: rest) :
    (pop_front m s).1 = some x ∧
    iterCollect (pop_front m s).2.chain 0 = rest ∧
    pop_front m s = removeOp m s (fun _ => true) := by
  have hscan : remove_scan (fun _ : α => true) s.chain = some (x, rest) := by
    rw [h]
    simp [remove_scan]
  refine ⟨?_, ?_, rfl⟩
  · simp [pop_front, removeOp, on_structure_change_chain, hscan]
  · rw [iterCollect_eq_drop]
    simp [pop_front, removeOp, on_structure_change_chain, hscan,
      on_remove_success_chain]

theorem claim_C10_pop_front_witness :
    (pop_front Mode.withLen ⟨[5, 6], 2, none⟩).1 = some 5 ∧
    iterCollect (pop_front Mode.withLen ⟨[5, 6], 2, none⟩).2.chain 0 = [6] ∧
    pop_front Mode.withLen ⟨[5, 6], 2, none⟩
      = removeOp Mode.withLen ⟨[5, 6], 2, none⟩ (fun _ => true) :=
  claim_C10_pop_front Mode.withLen ⟨[5, 6], 2, none⟩ 5 [6] rfl

end OnceList2
